import Mathlib

/-!
Verification of the PVT trajectory-streaming examples (CML_Examples).

Shallow embedding of the example programs' pure algorithmic content:

* `SmoothPositionProfile`, `CreateAlteredPositionsAndTimesVectors`,
  `ExtractTrajectoryFromScurveObject`, `slowDownDuration`, `streamedDurations`
  embed `LinkTrjScurveExample.cpp` (first variant).
* `LinkageMonitorThreadRun` embeds `LinkageMonitorThread::run` of
  `LinkageMonitor.cpp` (second document of `PvtFromFile.cpp`).
* `retryInit` embeds the node-initialization retry loops of
  `RobotTeachMode.cpp`.
* `chooseAxisIndex`, `sizeForAllAxes`, `appendLastPosition`,
  `equalizeAxisVectors` embed the teach-mode equalization step of
  `RobotTeachMode.cpp`.
* `PvtConstAccelTrj`, `addPvtPoint` and the boundary-velocity derivation are
  modelled from the specification, because `src/PvtConstAccelTrj.cpp`
  (referenced by the repository's CMakeLists) is not among the sources.

C++ `double` arithmetic is modelled exactly over `ℚ`; `uint8` values are `ℕ`
with explicit `% 256` where the code can overflow.
-/

namespace CMLExamples

/-- Embeds `timeConstant *= 2` from `LinkTrjScurveExample.cpp` main
(the on-the-fly slow-down applied to every duration streamed past the halfway
point): `timeConstant` is a `uint8`, so the multiplication wraps mod 256. -/
def slowDownDuration (t : ℕ) : ℕ := (2 * t) % 256

/-- Embeds the inner loop (over `j`) of `SmoothPositionProfile`
(`LinkTrjScurveExample.cpp` lines 74-87): each entry of the current row is
replaced by `(diff2 - diff1)/2 + cur` where `diff1 = cur - prev` and
`diff2 = next - cur`.  `prev` is the row `i-1` as already updated in this pass
(the C++ update is in place), `next` is the not-yet-updated row `i+1`. -/
def smoothRow : List ℚ → List ℚ → List ℚ → List ℚ
  | p :: ps, c :: cs, n :: ns => ((((n - c) - (c - p)) / 2) + c) :: smoothRow ps cs ns
  | _, _, _ => []

/-- Embeds the outer loop (over `i = 1 .. size-2`) of `SmoothPositionProfile`:
rows are rewritten in place from the second row up to the second-to-last row;
`prev` carries the already-updated previous row. -/
def smoothRows : List ℚ → List (List ℚ) → List (List ℚ)
  | _, [] => []
  | _, [last] => [last]
  | prev, cur :: next :: rest =>
      let newCur := smoothRow prev cur next
      newCur :: smoothRows newCur (next :: rest)

/-- Embeds `SmoothPositionProfile` (`LinkTrjScurveExample.cpp` lines 74-87):
one smoothing pass over the position matrix.  The loop starts at `i = 1` and
stops before the last row, so the first and last rows are never written. -/
def SmoothPositionProfile : List (List ℚ) → List (List ℚ)
  | [] => []
  | first :: rest => first :: smoothRows first rest

/-- Embeds the position-injection inner loop of
`CreateAlteredPositionsAndTimesVectors` (`LinkTrjScurveExample.cpp`
lines 193-206): `k` injected rows interpolated between rows `p` and `p2`,
`newPos = p[j] + ((p2[j] - p[j]) / (1 + k)) * t` for `t = 1 .. k`. -/
def injectedPositions (p p2 : List ℚ) (k : ℕ) : List (List ℚ) :=
  (List.range k).map fun t =>
    List.zipWith (fun x y => x + ((y - x) / (1 + (k : ℚ))) * (((t + 1 : ℕ) : ℚ))) p p2

/-- Embeds `CreateAlteredPositionsAndTimesVectors` (`LinkTrjScurveExample.cpp`
lines 161-209).  The loop runs over the positions vector, reading the time at
the same index (the example always calls it with equally long vectors):
a zero input time (the sentinel) is replaced by `a` (the altered time
constant); a time smaller than `a` is kept; a time `t ≥ a` is replaced by `a`
and, when the row is not the last one, `t / a - 1` further rows with time `a`
are injected (`injectionFactor` is computed by integer division). -/
def CreateAlteredPositionsAndTimesVectors (a : ℕ) :
    List (List ℚ) → List ℕ → List (List ℚ) × List ℕ
  | p :: p2 :: ps, t :: ts =>
      let rest := CreateAlteredPositionsAndTimesVectors a (p2 :: ps) ts
      if t = 0 then (p :: rest.1, a :: rest.2)
      else if t < a then (p :: rest.1, t :: rest.2)
      else
        let k := t / a - 1
        (p :: (injectedPositions p p2 k ++ rest.1), a :: (List.replicate k a ++ rest.2))
  | [p], t :: _ =>
      if t = 0 then ([p], [a]) else if t < a then ([p], [t]) else ([p], [a])
  | _, _ => ([], [])

/-- Embeds the order in which main (`LinkTrjScurveExample.cpp` lines 358-406)
hands the altered durations to `addPvtPoint`.  The first loop (before
`SendTrajectory`, nothing drains the software queue yet) enqueues the first
`min 50 n` points unchanged; the second loop enqueues the remaining points and
applies `slowDownDuration` to every point whose index is at least
`halfwayPoint = n / 2`.  `L` is the index of the first point handled by the
second loop. -/
def enqueueFrom (L halfway : ℕ) : ℕ → List ℕ → List ℕ
  | _, [] => []
  | i, t :: ts =>
      (if L ≤ i ∧ halfway ≤ i then slowDownDuration t else t) :: enqueueFrom L halfway (i + 1) ts

/-- The complete sequence of durations passed to `addPvtPoint` by main of
`LinkTrjScurveExample.cpp` (lines 358-406) for an altered-times vector `ts`:
see `enqueueFrom`. -/
def streamedDurations (ts : List ℕ) : List ℕ :=
  enqueueFrom (min 50 ts.length) (ts.length / 2) 0 ts

/-- Embeds the extraction loop of `ExtractTrajectoryFromScurveObject`
(`LinkTrjScurveExample.cpp` lines 95-122).  `seg k` is the (positions,
duration) pair produced by the `k`-th call of `LinkTrjScurve::NextSegment`;
the loop pushes every returned segment, including the final one whose duration
is 0, and stops right after that sentinel.  The loop in the source has no
bound; `fuel` is only an upper bound on the number of iterations, and all
theorems are stated for a fuel large enough to reach the sentinel. -/
def extractLoop (seg : ℕ → List ℚ × ℕ) : ℕ → ℕ → List (List ℚ) × List ℕ
  | _, 0 => ([], [])
  | k, fuel + 1 =>
      let s := seg k
      if s.2 = 0 then ([s.1], [0])
      else
        let rest := extractLoop seg (k + 1) fuel
        (s.1 :: rest.1, s.2 :: rest.2)

/-- Embeds `ExtractTrajectoryFromScurveObject` for a segment source `seg`
whose `n`-th call returns the duration-0 sentinel. -/
def ExtractTrajectoryFromScurveObject (seg : ℕ → List ℚ × ℕ) (n : ℕ) :
    List (List ℚ) × List ℕ :=
  extractLoop seg 0 (n + 1)

/-- Result of one `Linkage::WaitEvent` call as seen by
`LinkageMonitorThread::run` (`LinkageMonitor.cpp`): a timeout, the waited-for
linkage event (abort / error / fault, returned with a NULL error), or a
genuine communication error. -/
inductive WaitResult
  | timeout
  | linkEvent
  | commError
deriving DecidableEq

/-- Observable outcome of `LinkageMonitorThread::run`: the thread called
`Linkage::HaltMove`, or returned because `quit` was set, or the process exited
through `showerr` on a non-timeout error. -/
inductive MonitorOutcome
  | halted
  | quitReturn
  | errorExit
deriving DecidableEq

/-- Embeds the `WaitEvent` polling loop of `LinkageMonitorThread::run`
(`LinkageMonitor.cpp` lines 450-462): `ws` is the sequence of `WaitEvent`
results, `qs` the sequence of values read from the (unsynchronized) `quit`
flag, one per read; the loop re-reads `quit` only while the last result was a
timeout.  Returns the final `err` together with the unconsumed quit reads,
or `none` if the supplied schedule is too short to leave the loop. -/
def monitorLoop : List WaitResult → List Bool → Option (WaitResult × List Bool)
  | [], _ => none
  | w :: ws, qs =>
      if w = .timeout then
        match qs with
        | [] => none
        | q :: qs' => if q then some (.timeout, qs') else monitorLoop ws qs'
      else some (w, qs)

/-- Embeds `LinkageMonitorThread::run` (`LinkageMonitor.cpp` lines 450-488):
after the polling loop, a non-timeout genuine error exits the process through
`showerr`; otherwise `quit` is read once more and the thread either just
returns (quit requested) or calls `Linkage::HaltMove` on the whole linkage. -/
def LinkageMonitorThreadRun (ws : List WaitResult) (qs : List Bool) :
    Option MonitorOutcome :=
  match monitorLoop ws qs with
  | none => none
  | some (err, qs') =>
      if err = .commError then some .errorExit
      else
        match qs' with
        | [] => none
        | q :: _ => if q then some .quitReturn else some .halted

/-- Embeds the retry loops of `RobotTeachMode.cpp` main (lines 146-150, and
the identically shaped loops at 154-182): `err = Init(...); while (err)
{ sleep; err = Init(...); }`.  `e k = true` means the `k`-th attempt returns
an error.  The C++ loop is unbounded; `fuel` only truncates the embedding, and
`some m` means the loop terminated after `m` attempts within that fuel. -/
def retryInit (e : ℕ → Bool) : ℕ → ℕ → Option ℕ
  | _, 0 => none
  | k, fuel + 1 => if e k then retryInit e (k + 1) fuel else some (k + 1)

/-- Result of one `Amp::Enable` call as seen by the re-enable loop of
`RobotTeachMode.cpp` main (lines 214-235): success, the timeout error
(`err->GetID() == 124`), or any other error. -/
inductive EnableResult
  | ok
  | timeoutErr
  | otherErr
deriving DecidableEq

/-- Observable outcome of the re-enable loop of `RobotTeachMode.cpp` main:
the axis was enabled, or the process exited through the live `showerr` call
(line 226) after a failed `ReInit`. -/
inductive EnableOutcome
  | enabled
  | escalated
deriving DecidableEq

/-- Embeds the `Enable` retry loop of `RobotTeachMode.cpp` main
(lines 214-235): `err = Enable(); while (err) { if (err->GetID() == 124)
{ err = ReInit(); if (err) showerr(...); } err = Enable(); }`.  `en k` is the
result of the `k`-th `Enable` attempt; `re j = true` means the `j`-th
`ReInit` attempt fails, in which case the process exits through the live
`showerr` (escalation).  The loop itself is unbounded; `fuel` only truncates
the embedding, with `none` meaning the loop is still running after `fuel`
iterations. -/
def enableRetryLoop (en : ℕ → EnableResult) (re : ℕ → Bool) : ℕ → ℕ → ℕ → Option EnableOutcome
  | _, _, 0 => none
  | k, j, fuel + 1 =>
      match en k with
      | .ok => some .enabled
      | .timeoutErr =>
          if re j then some .escalated else enableRetryLoop en re (k + 1) (j + 1) fuel
      | .otherErr => enableRetryLoop en re (k + 1) j fuel

/-- Error result of the modelled `addPvtPoint`. -/
inductive PvtError
  | queueFull
deriving DecidableEq

/-- Modelled from the spec: the `PvtStreamBuffer` / `PvtConstAccelTrj`
software queue of pending waypoints.  `src/PvtConstAccelTrj.cpp` is referenced
by the repository's CMakeLists but is not among the sources, so the queue is
modelled from the specification: "a bounded software queue (capacity e.g.
50)".  A waypoint is a positions row together with a duration. -/
structure PvtConstAccelTrj where
  points : List (List ℚ × ℕ)
  capacity : ℕ
deriving DecidableEq

/-- Modelled from the spec: `addPvtPoint` "fails with `QueueFull` if the
caller attempts to exceed capacity" and otherwise appends the waypoint to the
bounded software queue. -/
def addPvtPoint (q : PvtConstAccelTrj) (pos : List ℚ) (t : ℕ) :
    Except PvtError PvtConstAccelTrj :=
  if q.capacity ≤ q.points.length then .error .queueFull
  else .ok ⟨q.points ++ [(pos, t)], q.capacity⟩

/-- Back-to-back enqueueing without draining: `addPvtPoint` folded over a list
of waypoints, as in the load loops of `src/unnamed/part_009` (lines 159-164)
and `LinkTrjScurveExample.cpp`. -/
def addPvtPoints (q : PvtConstAccelTrj) (ws : List (List ℚ × ℕ)) :
    Except PvtError PvtConstAccelTrj :=
  ws.foldlM (fun acc w => addPvtPoint acc w.1 w.2) q

/-- Modelled from the spec: the average (finite-difference) velocity of
segment `i` of a single-axis waypoint list, "computed from the position deltas
and durations of the segments": `(p[i+1] - p[i]) / t[i]`. -/
def segAvgVel (ps : List ℚ) (ts : List ℕ) (i : ℕ) : ℚ :=
  (ps.getD (i + 1) 0 - ps.getD i 0) / ((ts.getD i 0 : ℕ) : ℚ)

/-- Modelled from the spec: the velocity-derivation rule of the streaming
layer when waypoints carry only positions and durations
(`PvtConstAccelTrj`, whose source is not under the sources directory):
"the velocity assigned at each interior waypoint boundary is the value that
makes incoming and outgoing acceleration equal across that boundary, computed
from the position deltas and durations of the segments on each side (a
finite-difference, continuous-acceleration rule); the first and last waypoints
of the whole stream use one-sided differences."  The segment average velocity
`segAvgVel` is attained at the segment midpoint (duration `t/2` away from the
boundary), so the incoming and outgoing accelerations at boundary `i` are
`(v - segAvgVel (i-1)) / (t[i-1]/2)` and `(segAvgVel i - v) / (t[i]/2)`;
equating them and solving for `v` gives the duration-weighted mean below.
Endpoints use the one-sided difference of the single adjacent segment. -/
def derivedBoundaryVel (ps : List ℚ) (ts : List ℕ) (i : ℕ) : ℚ :=
  if i = 0 then segAvgVel ps ts 0
  else if i = ps.length - 1 then segAvgVel ps ts (ps.length - 2)
  else
    (segAvgVel ps ts (i - 1) * ((ts.getD i 0 : ℕ) : ℚ)
        + segAvgVel ps ts i * ((ts.getD (i - 1) 0 : ℕ) : ℚ))
      / (((ts.getD (i - 1) 0 : ℕ) : ℚ) + ((ts.getD i 0 : ℕ) : ℚ))

/-- Incoming (left) acceleration at boundary `i` under the modelled rule:
from the incoming segment's average velocity to the boundary velocity, over
half the incoming segment's duration. -/
def incomingAccel (ps : List ℚ) (ts : List ℕ) (i : ℕ) : ℚ :=
  (derivedBoundaryVel ps ts i - segAvgVel ps ts (i - 1)) / (((ts.getD (i - 1) 0 : ℕ) : ℚ) / 2)

/-- Outgoing (right) acceleration at boundary `i` under the modelled rule. -/
def outgoingAccel (ps : List ℚ) (ts : List ℕ) (i : ℕ) : ℚ :=
  (segAvgVel ps ts i - derivedBoundaryVel ps ts i) / (((ts.getD i 0 : ℕ) : ℚ) / 2)

/-- Embeds the `axisWithMostPosData` scan of `RobotTeachMode.cpp` main
(lines 238-243): starting from axis 0, the current champion is replaced by
axis `i` whenever the champion's recorded size is strictly greater than axis
`i`'s.  (The comparison direction makes this a running minimum.) -/
def chooseAxisIndex (sizes : List ℕ) : ℕ :=
  (List.range sizes.length).foldl
    (fun champ i => if sizes.getD i 0 < sizes.getD champ 0 then i else champ) 0

/-- Embeds `sizeForAllAxes` of `RobotTeachMode.cpp` main (line 246): the
recorded size of the chosen axis. -/
def sizeForAllAxes (sizes : List ℕ) : ℕ :=
  sizes.getD (chooseAxisIndex sizes) 0

/-- Embeds `appendLastPosition` (`RobotTeachMode.cpp` lines 391-396): appends
the vector's last element `number` times.  The C++ reads
`posVector[posVector.size() - 1]`, which is out of bounds on an empty vector;
that failure case is made explicit with `none`. -/
def appendLastPosition (posVector : List ℚ) (number : ℕ) : Option (List ℚ) :=
  match posVector.getLast? with
  | none => none
  | some last => some (posVector ++ List.replicate number last)

/-- Embeds the equalization loop of `RobotTeachMode.cpp` main (lines 246-252):
for each axis, `difference = sizeForAllAxes - size` (computed in signed
arithmetic; the `size_t` subtraction converted to `int` yields the
mathematical difference for realistic sizes), and `appendLastPosition` is
called only when `difference > 0`. -/
def equalizeAxisVectors (vs : List (List ℚ)) : List (List ℚ) :=
  let s := sizeForAllAxes (vs.map List.length)
  vs.map fun v =>
    let difference : ℤ := (s : ℤ) - (v.length : ℤ)
    if 0 < difference then (appendLastPosition v difference.toNat).getD v else v

/-! ### Helper lemmas -/

theorem smoothRows_length (prev : List ℚ) (l : List (List ℚ)) :
    (smoothRows prev l).length = l.length := by
  induction l generalizing prev with
  | nil => rfl
  | cons cur rest ih =>
    cases rest with
    | nil => rfl
    | cons next rest' => simpa [smoothRows] using ih (smoothRow prev cur next)

theorem smoothRows_getLast? (prev : List ℚ) (l : List (List ℚ)) (h : l ≠ []) :
    (smoothRows prev l).getLast? = l.getLast? := by
  induction l generalizing prev with
  | nil => exact absurd rfl h
  | cons cur rest ih =>
    cases rest with
    | nil => rfl
    | cons next rest' =>
      have hne : smoothRows (smoothRow prev cur next) (next :: rest') ≠ [] := by
        intro hcon
        have := smoothRows_length (smoothRow prev cur next) (next :: rest')
        rw [hcon] at this
        simp at this
      obtain ⟨x, xs, hx⟩ := List.exists_cons_of_ne_nil hne
      have hrec := ih (smoothRow prev cur next) (by simp)
      simp only [smoothRows]
      rw [hx] at hrec ⊢
      rw [List.getLast?_cons_cons, hrec, List.getLast?_cons_cons]

theorem smoothProfile_head? (m : List (List ℚ)) :
    (SmoothPositionProfile m).head? = m.head? := by
  cases m with
  | nil => rfl
  | cons first rest => rfl

theorem smoothProfile_getLast? (m : List (List ℚ)) :
    (SmoothPositionProfile m).getLast? = m.getLast? := by
  cases m with
  | nil => rfl
  | cons first rest =>
    cases rest with
    | nil => rfl
    | cons b l =>
      have hne : smoothRows first (b :: l) ≠ [] := by
        intro hcon
        have := smoothRows_length first (b :: l)
        rw [hcon] at this
        simp at this
      obtain ⟨x, xs, hx⟩ := List.exists_cons_of_ne_nil hne
      have hrec := smoothRows_getLast? first (b :: l) (by simp)
      simp only [SmoothPositionProfile]
      rw [hx] at hrec ⊢
      rw [List.getLast?_cons_cons, hrec, List.getLast?_cons_cons]

theorem smoothProfile_length (m : List (List ℚ)) :
    (SmoothPositionProfile m).length = m.length := by
  cases m with
  | nil => rfl
  | cons first rest => simp [SmoothPositionProfile, smoothRows_length]

/-! ### Claim theorems -/

/-- C9: `SmoothPositionProfile` never moves the endpoints of the profile: for
every position matrix with at least two rows and any number `k` of
applications, the first row and the last row are unchanged (and the number of
rows is preserved, so only interior rows can have been modified). -/
theorem C9_endpoints_preserved (m : List (List ℚ)) (k : ℕ) (h : 2 ≤ m.length) :
    (SmoothPositionProfile^[k] m).head? = m.head? ∧
      (SmoothPositionProfile^[k] m).getLast? = m.getLast? ∧
      (SmoothPositionProfile^[k] m).length = m.length := by
  clear h
  induction k with
  | zero => simp
  | succ k ih =>
    rw [Function.iterate_succ_apply']
    refine ⟨?_, ?_, ?_⟩
    · rw [smoothProfile_head?, ih.1]
    · rw [smoothProfile_getLast?, ih.2.1]
    · rw [smoothProfile_length, ih.2.2]

/-- C9 witness: the theorem applied to a concrete three-row matrix. -/
theorem C9_witness :
    2 ≤ ([[0], [10], [4]] : List (List ℚ)).length ∧
      ((SmoothPositionProfile^[2] [[0], [10], [4]]).head? = ([[0], [10], [4]] : List (List ℚ)).head? ∧
        (SmoothPositionProfile^[2] [[0], [10], [4]]).getLast? = ([[0], [10], [4]] : List (List ℚ)).getLast? ∧
        (SmoothPositionProfile^[2] [[0], [10], [4]]).length = ([[0], [10], [4]] : List (List ℚ)).length) :=
  ⟨by decide, C9_endpoints_preserved [[0], [10], [4]] 2 (by decide)⟩

/-- C4 counterexample: the claim quantifies over every duration `t` in
1..255, but doubling the 8-bit value 128 wraps to 0, the reserved sentinel. -/
theorem C4_counterexample : 1 ≤ 128 ∧ 128 ≤ 255 ∧ slowDownDuration 128 = 0 := by
  decide

/-- C4 (amended): for every real waypoint duration `t` in 1..255 other than
128, the mid-stream slow-down `slowDownDuration` (doubling on an 8-bit
unsigned value) never produces 0, the reserved end-of-stream value. -/
theorem C4_double_nonzero (t : ℕ) (h1 : 1 ≤ t) (h2 : t ≤ 255) (h3 : t ≠ 128) :
    slowDownDuration t ≠ 0 := by
  unfold slowDownDuration
  omega

/-- C4 witness: the amended theorem applied at the program's altered time
constant 20. -/
theorem C4_witness : (1 ≤ 20 ∧ 20 ≤ 255 ∧ 20 ≠ 128) ∧ slowDownDuration 20 ≠ 0 :=
  ⟨by decide, C4_double_nonzero 20 (by decide) (by decide) (by decide)⟩

theorem chooseAxis_foldl_min (sizes : List ℕ) (l : List ℕ) (c : ℕ) :
    sizes.getD
        (l.foldl (fun champ i => if sizes.getD i 0 < sizes.getD champ 0 then i else champ) c) 0
        ≤ sizes.getD c 0 ∧
      ∀ i ∈ l,
        sizes.getD
            (l.foldl (fun champ i => if sizes.getD i 0 < sizes.getD champ 0 then i else champ) c) 0
            ≤ sizes.getD i 0 := by
  induction l generalizing c with
  | nil => exact ⟨le_refl _, by simp⟩
  | cons j l ih =>
    have step : sizes.getD (if sizes.getD j 0 < sizes.getD c 0 then j else c) 0 ≤ sizes.getD c 0 ∧
        sizes.getD (if sizes.getD j 0 < sizes.getD c 0 then j else c) 0 ≤ sizes.getD j 0 := by
      by_cases hlt : sizes.getD j 0 < sizes.getD c 0
      · rw [if_pos hlt]
        exact ⟨le_of_lt hlt, le_refl _⟩
      · rw [if_neg hlt]
        exact ⟨le_refl _, le_of_not_lt hlt⟩
    have ihc := ih (if sizes.getD j 0 < sizes.getD c 0 then j else c)
    constructor
    · simpa using le_trans ihc.1 step.1
    · intro i hi
      rcases List.mem_cons.mp hi with hji | hil
      · subst hji
        simpa using le_trans ihc.1 step.2
      · simpa using ihc.2 i hil

theorem sizeForAllAxes_le (sizes : List ℕ) (x : ℕ) (hx : x ∈ sizes) :
    sizeForAllAxes sizes ≤ x := by
  obtain ⟨i, hi, hix⟩ := List.mem_iff_getElem.mp hx
  have h := (chooseAxis_foldl_min sizes (List.range sizes.length) 0).2 i
    (List.mem_range.mpr hi)
  rw [List.getD_eq_getElem sizes 0 hi, hix] at h
  exact h

/-- C10: the common length chosen by the teach-mode equalization step never
exceeds the length of any axis's recorded position vector; consequently the
`difference > 0` guard never fires, the equalization loop leaves every vector
unchanged (so `appendLastPosition` is never invoked, in particular never on an
empty vector), and every index below `sizeForAllAxes` is in bounds for every
axis. -/
theorem C10_sizeForAllAxes_safe (vs : List (List ℚ)) :
    (∀ v ∈ vs, sizeForAllAxes (vs.map List.length) ≤ v.length) ∧
      equalizeAxisVectors vs = vs ∧
      ∀ v ∈ vs, ∀ i < sizeForAllAxes (vs.map List.length), i < v.length := by
  have hle : ∀ v ∈ vs, sizeForAllAxes (vs.map List.length) ≤ v.length := by
    intro v hv
    exact sizeForAllAxes_le _ _ (List.mem_map_of_mem List.length hv)
  refine ⟨hle, ?_, ?_⟩
  · unfold equalizeAxisVectors
    have : ∀ v ∈ vs,
        (if 0 < (sizeForAllAxes (vs.map List.length) : ℤ) - (v.length : ℤ) then
            (appendLastPosition v ((sizeForAllAxes (vs.map List.length) : ℤ) - (v.length : ℤ)).toNat).getD v
          else v) = v := by
      intro v hv
      have h := hle v hv
      rw [if_neg (by omega)]
    calc vs.map _ = vs.map id := List.map_congr_left this
      _ = vs := List.map_id vs
  · intro v hv i hi
    exact lt_of_lt_of_le hi (hle v hv)

/-- C10 witness: the theorem applied to concrete recorded vectors of lengths
2 and 1; the chosen common length is 1. -/
theorem C10_witness :
    (([1] : List ℚ) ∈ [[(0 : ℚ), 0], [1]] ∧
        sizeForAllAxes ([[(0 : ℚ), 0], [1]].map List.length) ≤ ([1] : List ℚ).length) ∧
      equalizeAxisVectors [[(0 : ℚ), 0], [1]] = [[(0 : ℚ), 0], [1]] :=
  ⟨⟨by decide, (C10_sizeForAllAxes_safe [[(0 : ℚ), 0], [1]]).1 [1] (by decide)⟩,
    (C10_sizeForAllAxes_safe [[(0 : ℚ), 0], [1]]).2.1⟩

theorem createAltered_cons_cons (a : ℕ) (p p2 : List ℚ) (ps : List (List ℚ)) (t : ℕ)
    (ts : List ℕ) :
    CreateAlteredPositionsAndTimesVectors a (p :: p2 :: ps) (t :: ts) =
      (if t = 0 then
          (p :: (CreateAlteredPositionsAndTimesVectors a (p2 :: ps) ts).1,
            a :: (CreateAlteredPositionsAndTimesVectors a (p2 :: ps) ts).2)
        else if t < a then
          (p :: (CreateAlteredPositionsAndTimesVectors a (p2 :: ps) ts).1,
            t :: (CreateAlteredPositionsAndTimesVectors a (p2 :: ps) ts).2)
        else
          (p :: (injectedPositions p p2 (t / a - 1) ++
              (CreateAlteredPositionsAndTimesVectors a (p2 :: ps) ts).1),
            a :: (List.replicate (t / a - 1) a ++
              (CreateAlteredPositionsAndTimesVectors a (p2 :: ps) ts).2))) := rfl

theorem createAltered_single (a : ℕ) (p : List ℚ) (t : ℕ) (ts : List ℕ) :
    CreateAlteredPositionsAndTimesVectors a [p] (t :: ts) =
      (if t = 0 then ([p], [a]) else if t < a then ([p], [t]) else ([p], [a])) := rfl

theorem mem_createAltered_times (a : ℕ) (ha : 1 ≤ a) :
    ∀ (ps : List (List ℚ)) (ts : List ℕ) (x : ℕ),
      x ∈ (CreateAlteredPositionsAndTimesVectors a ps ts).2 → 1 ≤ x ∧ x ≤ a := by
  intro ps
  induction ps with
  | nil =>
    intro ts x hx
    simp [CreateAlteredPositionsAndTimesVectors] at hx
  | cons p ps ih =>
    intro ts x hx
    cases ps with
    | nil =>
      cases ts with
      | nil => simp [CreateAlteredPositionsAndTimesVectors] at hx
      | cons t ts0 =>
        by_cases h0 : t = 0
        · simp [CreateAlteredPositionsAndTimesVectors, h0] at hx
          omega
        · by_cases hlt : t < a
          · simp [CreateAlteredPositionsAndTimesVectors, h0, hlt] at hx
            omega
          · simp [CreateAlteredPositionsAndTimesVectors, h0, hlt] at hx
            omega
    | cons p2 ps' =>
      cases ts with
      | nil => simp [CreateAlteredPositionsAndTimesVectors] at hx
      | cons t ts' =>
        by_cases h0 : t = 0
        · simp [CreateAlteredPositionsAndTimesVectors, h0] at hx
          rcases hx with hx | hx
          · omega
          · exact ih ts' x hx
        · by_cases hlt : t < a
          · simp [CreateAlteredPositionsAndTimesVectors, h0, hlt] at hx
            rcases hx with hx | hx
            · omega
            · exact ih ts' x hx
          · simp [CreateAlteredPositionsAndTimesVectors, h0, hlt, List.mem_replicate] at hx
            rcases hx with hx | hx | hx
            · omega
            · omega
            · exact ih ts' x hx

theorem createAltered_times_getLast (a : ℕ) :
    ∀ (ps : List (List ℚ)) (ts ts' : List ℕ),
      ps.length = ts.length → ts = ts' ++ [0] →
      (CreateAlteredPositionsAndTimesVectors a ps ts).2 ≠ [] ∧
        (CreateAlteredPositionsAndTimesVectors a ps ts).2.getLast? = some a := by
  intro ps
  induction ps with
  | nil =>
    intro ts ts' hlen hts
    exfalso
    subst hts
    simp at hlen
  | cons p ps ih =>
    intro ts ts' hlen hts
    cases ps with
    | nil =>
      have hts' : ts' = [] := by
        cases ts' with
        | nil => rfl
        | cons u us =>
          subst hts
          simp at hlen
      subst hts'
      subst hts
      simp [CreateAlteredPositionsAndTimesVectors]
    | cons p2 ps' =>
      cases ts' with
      | nil =>
        subst hts
        simp at hlen
      | cons u us =>
        subst hts
        rw [List.cons_append] at hlen ⊢
        have hlen' : (p2 :: ps').length = (us ++ [0]).length := by
          simpa using hlen
        obtain ⟨hne, hlast⟩ := ih (us ++ [0]) us hlen' rfl
        obtain ⟨y, ys, hy⟩ :=
          List.exists_cons_of_ne_nil hne
        rw [createAltered_cons_cons]
        by_cases h0 : u = 0
        · rw [if_pos h0]
          rw [hy] at hlast ⊢
          exact ⟨by simp, by rw [List.getLast?_cons_cons, hlast]⟩
        · by_cases hlt : u < a
          · rw [if_neg h0, if_pos hlt]
            rw [hy] at hlast ⊢
            exact ⟨by simp, by rw [List.getLast?_cons_cons, hlast]⟩
          · rw [if_neg h0, if_neg hlt]
            constructor
            · simp
            · show (a :: (List.replicate (u / a - 1) a ++
                (CreateAlteredPositionsAndTimesVectors a (p2 :: ps') (us ++ [0])).2)).getLast? =
                some a
              rw [← List.cons_append, List.getLast?_append_of_ne_nil _ hne]
              exact hlast

theorem createAltered_times_sum (a : ℕ) (ha : 1 ≤ a) :
    ∀ (ps : List (List ℚ)) (ts ts' : List ℕ),
      ps.length = ts.length → ts = ts' ++ [0] →
      (CreateAlteredPositionsAndTimesVectors a ps ts).2.sum ≤ ts.sum + ts.length * a ∧
        ts.sum ≤ (CreateAlteredPositionsAndTimesVectors a ps ts).2.sum + ts.length * a := by
  intro ps
  induction ps with
  | nil =>
    intro ts ts' hlen hts
    exfalso
    subst hts
    simp at hlen
  | cons p ps ih =>
    intro ts ts' hlen hts
    cases ps with
    | nil =>
      have hts' : ts' = [] := by
        cases ts' with
        | nil => rfl
        | cons u us =>
          subst hts
          simp at hlen
      subst hts'
      subst hts
      simp [CreateAlteredPositionsAndTimesVectors]
    | cons p2 ps' =>
      cases ts' with
      | nil =>
        subst hts
        simp at hlen
      | cons u us =>
        subst hts
        rw [List.cons_append] at hlen ⊢
        have hlen' : (p2 :: ps').length = (us ++ [0]).length := by
          simpa using hlen
        obtain ⟨ih1, ih2⟩ := ih (us ++ [0]) us hlen' rfl
        rw [createAltered_cons_cons]
        simp only [List.sum_cons, List.sum_append, List.sum_nil, List.length_cons,
          List.length_append, List.length_nil, List.sum_replicate, smul_eq_mul,
          Nat.add_mul, Nat.one_mul] at ih1 ih2 ⊢
        by_cases h0 : u = 0
        · rw [if_pos h0]
          simp only [List.sum_cons]
          constructor
          · omega
          · omega
        · by_cases hlt : u < a
          · rw [if_neg h0, if_pos hlt]
            simp only [List.sum_cons]
            constructor
            · omega
            · omega
          · have hml : u % a < a := Nat.mod_lt u (by omega)
            have hq1 : 1 ≤ u / a := (Nat.one_le_div_iff (by omega)).mpr (by omega)
            have hexp : a + (u / a - 1) * a = u / a * a := by
              obtain ⟨m, hm⟩ := Nat.exists_eq_add_of_le hq1
              rw [hm, Nat.add_sub_cancel_left]
              ring
            have hub : u / a * a ≤ u := Nat.div_mul_le_self u a
            have hlb : u / a * a + u % a = u := Nat.div_add_mod' u a
            rw [if_neg h0, if_neg hlt]
            simp only [List.sum_cons, List.sum_append, List.sum_replicate, smul_eq_mul]
            constructor
            · omega
            · omega

theorem mem_enqueueFrom (L halfway : ℕ) :
    ∀ (ts : List ℕ) (i : ℕ) (x : ℕ), x ∈ enqueueFrom L halfway i ts →
      ∃ t ∈ ts, x = t ∨ x = slowDownDuration t := by
  intro ts
  induction ts with
  | nil =>
    intro i x hx
    simp [enqueueFrom] at hx
  | cons t ts ih =>
    intro i x hx
    simp only [enqueueFrom, List.mem_cons] at hx
    rcases hx with hx | hx
    · by_cases hc : L ≤ i ∧ halfway ≤ i
      · exact ⟨t, List.mem_cons_self t ts, Or.inr (by rwa [if_pos hc] at hx)⟩
      · exact ⟨t, List.mem_cons_self t ts, Or.inl (by rwa [if_neg hc] at hx)⟩
    · obtain ⟨t', ht', hxt⟩ := ih (i + 1) x hx
      exact ⟨t', List.mem_cons_of_mem t ht', hxt⟩

/-- C1 counterexample: for the input profile with positions
`[[0,0,0],[1,1,1]]` and durations `[50, 0]` (ending in the single sentinel 0)
and altered time constant 20, the stream of durations handed to `addPvtPoint`
is `[20, 20, 20]`: its last element is not the sentinel 0 — the function
replaces the incoming sentinel by the altered time constant, and main's first
variant never re-appends a 0. -/
theorem C1_counterexample :
    ([50, 0] : List ℕ) = [50] ++ [0] ∧
      streamedDurations
          ((CreateAlteredPositionsAndTimesVectors 20 [[0, 0, 0], [1, 1, 1]] [50, 0]).2) =
        [20, 20, 20] ∧
      ¬ (([20, 20, 20] : List ℕ).getLast? = some 0) := by
  refine ⟨rfl, ?_, by decide⟩
  rfl

/-- C1 (amended): for every input profile whose durations end with a single
`duration == 0` element, and every altered time constant `a` with
`1 ≤ a ≤ 127`, the altered stream enqueued point-by-point via `addPvtPoint`
contains NO `duration == 0` element at all: the input sentinel is replaced by
`a` (the altered stream ends with `a`), so the enqueued stream carries no
end-of-stream sentinel — re-appending it is left to the caller, and the first
variant of `LinkTrjScurveExample.cpp` main does not do so. -/
theorem C1_no_sentinel_in_stream (a : ℕ) (ps : List (List ℚ)) (ts ts' : List ℕ)
    (h1 : 1 ≤ a) (h2 : a ≤ 127) (hlen : ps.length = ts.length) (hts : ts = ts' ++ [0]) :
    (∀ d ∈ streamedDurations ((CreateAlteredPositionsAndTimesVectors a ps ts).2), d ≠ 0) ∧
      (CreateAlteredPositionsAndTimesVectors a ps ts).2.getLast? = some a := by
  constructor
  · intro d hd
    obtain ⟨t, ht, hdt⟩ := mem_enqueueFrom _ _ _ _ _ hd
    obtain ⟨ht1, hta⟩ := mem_createAltered_times a h1 ps ts t ht
    rcases hdt with rfl | rfl
    · omega
    · unfold slowDownDuration
      omega
  · exact (createAltered_times_getLast a ps ts ts' hlen hts).2

/-- C1 witness: the amended theorem applied to the concrete profile of the
counterexample. -/
theorem C1_witness :
    (1 ≤ 20 ∧ 20 ≤ 127 ∧
        ([[0, 0, 0], [1, 1, 1]] : List (List ℚ)).length = ([50, 0] : List ℕ).length ∧
        ([50, 0] : List ℕ) = [50] ++ [0]) ∧
      ((∀ d ∈ streamedDurations
            ((CreateAlteredPositionsAndTimesVectors 20 [[0, 0, 0], [1, 1, 1]] [50, 0]).2),
          d ≠ 0) ∧
        (CreateAlteredPositionsAndTimesVectors 20 [[0, 0, 0], [1, 1, 1]] [50, 0]).2.getLast? =
          some 20) :=
  ⟨⟨by decide, by decide, by decide, rfl⟩,
    C1_no_sentinel_in_stream 20 [[0, 0, 0], [1, 1, 1]] [50, 0] [50]
      (by decide) (by decide) (by decide) rfl⟩

/-- C5 counterexample: the input durations `[39, 39, 39, 0]` (all non-final
durations nonzero) with altered time constant 20 sum to 117, but the altered
durations sum to 80: the totals differ by 37, more than one 20-unit chunk. -/
theorem C5_counterexample :
    (∀ t ∈ ([39, 39, 39] : List ℕ), t ≠ 0) ∧
      (CreateAlteredPositionsAndTimesVectors 20
          [[0, 0, 0], [1, 1, 1], [2, 2, 2], [3, 3, 3]] [39, 39, 39, 0]).2.sum = 80 ∧
      ([39, 39, 39, 0] : List ℕ).sum = 117 ∧
      ¬ ((117 - 80 : ℤ).natAbs ≤ 20) := by
  refine ⟨by decide, ?_, by decide, by decide⟩
  rfl

/-- C5 (amended): resampling preserves the total move time to within one
quantization unit PER INPUT WAYPOINT, not one unit overall: for every input
whose durations end with the 0 sentinel and every altered time constant
`a ≥ 1`, the output duration sum and the input duration sum differ by at most
`(number of input points) * a`. -/
theorem C5_sum_within_chunk_per_point (a : ℕ) (ps : List (List ℚ)) (ts ts' : List ℕ)
    (h1 : 1 ≤ a) (hlen : ps.length = ts.length) (hts : ts = ts' ++ [0]) :
    (CreateAlteredPositionsAndTimesVectors a ps ts).2.sum ≤ ts.sum + ts.length * a ∧
      ts.sum ≤ (CreateAlteredPositionsAndTimesVectors a ps ts).2.sum + ts.length * a :=
  createAltered_times_sum a h1 ps ts ts' hlen hts

/-- C5 witness: the amended theorem applied to the counterexample's profile
(sums 80 and 117, input length 4, so the bound is 80). -/
theorem C5_witness :
    (1 ≤ 20 ∧
        ([[0, 0, 0], [1, 1, 1], [2, 2, 2], [3, 3, 3]] : List (List ℚ)).length =
          ([39, 39, 39, 0] : List ℕ).length ∧
        ([39, 39, 39, 0] : List ℕ) = [39, 39, 39] ++ [0]) ∧
      ((CreateAlteredPositionsAndTimesVectors 20
            [[0, 0, 0], [1, 1, 1], [2, 2, 2], [3, 3, 3]] [39, 39, 39, 0]).2.sum ≤
          ([39, 39, 39, 0] : List ℕ).sum + ([39, 39, 39, 0] : List ℕ).length * 20 ∧
        ([39, 39, 39, 0] : List ℕ).sum ≤
          (CreateAlteredPositionsAndTimesVectors 20
              [[0, 0, 0], [1, 1, 1], [2, 2, 2], [3, 3, 3]] [39, 39, 39, 0]).2.sum +
            ([39, 39, 39, 0] : List ℕ).length * 20) :=
  ⟨⟨by decide, by decide, rfl⟩,
    C5_sum_within_chunk_per_point 20 [[0, 0, 0], [1, 1, 1], [2, 2, 2], [3, 3, 3]]
      [39, 39, 39, 0] [39, 39, 39] (by decide) (by decide) rfl⟩

theorem extractLoop_succ (seg : ℕ → List ℚ × ℕ) (k fuel : ℕ) :
    extractLoop seg k (fuel + 1) =
      if (seg k).2 = 0 then ([(seg k).1], [0])
      else ((seg k).1 :: (extractLoop seg (k + 1) fuel).1,
        (seg k).2 :: (extractLoop seg (k + 1) fuel).2) := rfl

theorem extractLoop_times (seg : ℕ → List ℚ × ℕ) :
    ∀ (n k : ℕ), (seg (k + n)).2 = 0 →
      (extractLoop seg k (n + 1)).2 ≠ [] ∧
        (extractLoop seg k (n + 1)).2.getLast? = some 0 ∧
        ∀ t ∈ (extractLoop seg k (n + 1)).2.dropLast, t ≠ 0 := by
  intro n
  induction n with
  | zero =>
    intro k h0
    rw [Nat.add_zero] at h0
    rw [extractLoop_succ, if_pos h0]
    exact ⟨by simp, by simp, by simp⟩
  | succ n ih =>
    intro k h0
    by_cases hz : (seg k).2 = 0
    · rw [extractLoop_succ, if_pos hz]
      exact ⟨by simp, by simp, by simp⟩
    · have h0' : (seg ((k + 1) + n)).2 = 0 := by
        rw [show (k + 1) + n = k + (n + 1) by omega]
        exact h0
      obtain ⟨hne, hlast, hmid⟩ := ih (k + 1) h0'
      obtain ⟨y, ys, hy⟩ := List.exists_cons_of_ne_nil hne
      rw [extractLoop_succ, if_neg hz]
      refine ⟨by simp, ?_, ?_⟩
      · show ((seg k).2 :: (extractLoop seg (k + 1) (n + 1)).2).getLast? = some 0
        rw [hy] at hlast ⊢
        rw [List.getLast?_cons_cons, hlast]
      · intro t ht
        rw [hy] at ht
        simp only [List.dropLast, List.mem_cons] at ht
        rcases ht with rfl | ht
        · exact hz
        · refine hmid t ?_
          rw [hy]
          simpa [List.dropLast] using ht

/-- C6: under the precondition that some `NextSegment` call yields duration 0,
the times sequence extracted by `ExtractTrajectoryFromScurveObject` is
non-empty (and finite by construction), its last element is 0, and no element
before the last is 0: the sequence terminates with exactly one trailing
`duration == 0` sentinel. -/
theorem C6_extract_sentinel (seg : ℕ → List ℚ × ℕ) (n : ℕ) (h : (seg n).2 = 0) :
    (ExtractTrajectoryFromScurveObject seg n).2 ≠ [] ∧
      (ExtractTrajectoryFromScurveObject seg n).2.getLast? = some 0 ∧
      ∀ t ∈ (ExtractTrajectoryFromScurveObject seg n).2.dropLast, t ≠ 0 := by
  unfold ExtractTrajectoryFromScurveObject
  refine extractLoop_times seg n 0 ?_
  simpa using h

/-- C6 witness: a segment source producing durations 7, 7, 0. -/
theorem C6_witness :
    ((fun k => (([0] : List ℚ), if k < 2 then 7 else 0)) 2).2 = 0 ∧
      ((ExtractTrajectoryFromScurveObject
            (fun k => (([0] : List ℚ), if k < 2 then 7 else 0)) 2).2 ≠ [] ∧
        (ExtractTrajectoryFromScurveObject
            (fun k => (([0] : List ℚ), if k < 2 then 7 else 0)) 2).2.getLast? = some 0 ∧
        ∀ t ∈ (ExtractTrajectoryFromScurveObject
            (fun k => (([0] : List ℚ), if k < 2 then 7 else 0)) 2).2.dropLast, t ≠ 0) :=
  ⟨rfl, C6_extract_sentinel (fun k => (([0] : List ℚ), if k < 2 then 7 else 0)) 2 rfl⟩

theorem monitorLoop_skip (ws' : List WaitResult) (qs₀ : List Bool) :
    ∀ m : ℕ,
      monitorLoop (List.replicate m .timeout ++ .linkEvent :: ws')
          (List.replicate m false ++ qs₀) = some (.linkEvent, qs₀) := by
  intro m
  induction m with
  | zero => simp [monitorLoop]
  | succ m ih =>
    simp only [List.replicate_succ, List.cons_append]
    simpa [monitorLoop] using ih

/-- C2 counterexample: the interleaving in which `WaitEvent` returns the
abort/error/fault event and `Quit()` lands just before the thread's final
read of the `quit` flag: the monitor returns without ever calling
`HaltMove`. -/
theorem C2_counterexample :
    WaitResult.linkEvent ∈ [WaitResult.linkEvent] ∧
      LinkageMonitorThreadRun [WaitResult.linkEvent] [true] =
        some MonitorOutcome.quitReturn ∧
      some MonitorOutcome.quitReturn ≠ some MonitorOutcome.halted := by
  decide

/-- C2 (amended): the monitor invokes `HaltMove` on the whole linkage in
every interleaving in which the `quit` flag is still false when it is checked
after `WaitEvent` reports the event: for any number `m` of preceding
timeouts, if every `quit` read up to and including the post-loop check is
false, the run outcome is `halted`.  (If `Quit()` lands before that check,
the thread returns without halting, as the counterexample shows.) -/
theorem C2_halt_on_event (m : ℕ) (ws' : List WaitResult) (qs' : List Bool) :
    LinkageMonitorThreadRun (List.replicate m .timeout ++ .linkEvent :: ws')
        (List.replicate (m + 1) false ++ qs') = some .halted := by
  have hq : List.replicate (m + 1) false ++ qs' =
      List.replicate m false ++ (false :: qs') := by
    rw [List.replicate_succ', List.append_assoc]
    rfl
  rw [hq]
  unfold LinkageMonitorThreadRun
  rw [monitorLoop_skip ws' (false :: qs') m]
  rfl

theorem retryInit_allFail (fuel : ℕ) :
    ∀ k : ℕ, retryInit (fun _ => true) k fuel = none := by
  induction fuel with
  | zero => intro k; rfl
  | succ fuel ih => intro k; simpa [retryInit] using ih (k + 1)

theorem retryInit_isSome (e : ℕ → Bool) :
    ∀ (fuel k : ℕ), (∃ j, j < fuel ∧ e (k + j) = false) →
      (retryInit e k fuel).isSome := by
  intro fuel
  induction fuel with
  | zero =>
    intro k hex
    obtain ⟨j, hj, _⟩ := hex
    omega
  | succ fuel ih =>
    intro k hex
    obtain ⟨j, hj, hje⟩ := hex
    cases hek : e k with
    | false => simp [retryInit, hek]
    | true =>
      have hj0 : j ≠ 0 := by
        intro hcon
        subst hcon
        rw [Nat.add_zero, hek] at hje
        exact Bool.noConfusion hje
      have hex' : ∃ j', j' < fuel ∧ e ((k + 1) + j') = false :=
        ⟨j - 1, by omega, by rw [show (k + 1) + (j - 1) = k + j by omega]; exact hje⟩
      simpa [retryInit, hek] using ih (k + 1) hex'

/-- C7 counterexample: no bound of attempts makes the retry loops of
`RobotTeachMode.cpp` terminate on every error sequence: the all-errors
sequence keeps the `while (err)` loop running past any bound, so the claim
that "the retry loops terminate after boundedly many attempts even if the
operation never succeeds" is false. -/
theorem C7_counterexample :
    ¬ ∃ B : ℕ, ∀ e : ℕ → Bool, (retryInit e 0 B).isSome := by
  rintro ⟨B, hB⟩
  have h := hB (fun _ => true)
  rw [retryInit_allFail B 0] at h
  simp at h

theorem enableRetryLoop_succ (en : ℕ → EnableResult) (re : ℕ → Bool) (k j fuel : ℕ) :
    enableRetryLoop en re k j (fuel + 1) =
      match en k with
      | .ok => some .enabled
      | .timeoutErr =>
          if re j then some .escalated else enableRetryLoop en re (k + 1) (j + 1) fuel
      | .otherErr => enableRetryLoop en re (k + 1) j fuel := rfl

theorem enableRetryLoop_allOther (en : ℕ → EnableResult) (re : ℕ → Bool)
    (hall : ∀ k, en k = .otherErr) :
    ∀ (fuel k j : ℕ), enableRetryLoop en re k j fuel = none := by
  intro fuel
  induction fuel with
  | zero => intro k j; rfl
  | succ fuel ih =>
    intro k j
    rw [enableRetryLoop_succ, hall k]
    exact ih (k + 1) j

/-- C7 (amended): the retry loops are unbounded, not bounded.  The
`Init`/`PreOpNode`/TPDO-`Init`/`StartNode` loops (lines 146-180) terminate
exactly when some attempt succeeds and never escalate on persistent failure
(their `showerr` calls are commented out).  The `Enable` loop (lines 214-235)
likewise retries forever on a persistent non-timeout error and terminates on
`Enable` success; its only escalation is the `ReInit`-failure path after a
timeout error, which exits the process immediately through the live `showerr`
at line 226 rather than after a bounded retry count. -/
theorem C7_retry_unbounded (e : ℕ → Bool) (en : ℕ → EnableResult) (re : ℕ → Bool) :
    ((∃ k, e k = false) → ∃ fuel, (retryInit e 0 fuel).isSome) ∧
      ((∀ k, e k = true) → ∀ fuel, retryInit e 0 fuel = none) ∧
      ((∀ k, en k = .otherErr) → ∀ fuel, enableRetryLoop en re 0 0 fuel = none) ∧
      (∀ k j fuel, en k = .ok → enableRetryLoop en re k j (fuel + 1) = some .enabled) ∧
      (∀ k j fuel, en k = .timeoutErr → re j = true →
        enableRetryLoop en re k j (fuel + 1) = some .escalated) := by
  refine ⟨?_, ?_, ?_, ?_, ?_⟩
  · rintro ⟨k, hk⟩
    refine ⟨k + 1, retryInit_isSome e (k + 1) 0 ⟨k, by omega, by simpa using hk⟩⟩
  · intro hall fuel
    have he : (fun _ => true : ℕ → Bool) = e := funext fun k => (hall k).symm
    rw [← he]
    exact retryInit_allFail fuel 0
  · intro hall fuel
    exact enableRetryLoop_allOther en re hall fuel 0 0
  · intro k j fuel hok
    rw [enableRetryLoop_succ, hok]
  · intro k j fuel htime hre
    rw [enableRetryLoop_succ, htime, if_pos hre]

/-- C7 witness: the amended theorem applied to the init-error sequence that
errors on attempt 0 and succeeds from attempt 1 on, and to the Enable
schedule whose first attempt times out and whose `ReInit` fails (the
escalation path). -/
theorem C7_witness :
    ((∃ k, (fun k => decide (k = 0)) k = false) ∧
        ∃ fuel, (retryInit (fun k => decide (k = 0)) 0 fuel).isSome) ∧
      ((fun _ => EnableResult.timeoutErr : ℕ → EnableResult) 0 = EnableResult.timeoutErr ∧
        (fun _ => true : ℕ → Bool) 0 = true) ∧
      enableRetryLoop (fun _ => EnableResult.timeoutErr) (fun _ => true) 0 0 1 =
        some EnableOutcome.escalated :=
  ⟨⟨⟨1, by decide⟩,
      (C7_retry_unbounded (fun k => decide (k = 0)) (fun _ => EnableResult.timeoutErr)
          (fun _ => true)).1 ⟨1, by decide⟩⟩,
    ⟨rfl, rfl⟩,
    (C7_retry_unbounded (fun k => decide (k = 0)) (fun _ => EnableResult.timeoutErr)
        (fun _ => true)).2.2.2.2 0 0 0 rfl rfl⟩

/-- C3: under the spec-modelled bounded software queue (capacity 50),
`addPvtPoint` succeeds exactly while the queue holds fewer points than its
capacity and fails with `QueueFull` on the attempt that would exceed it; in
particular enqueuing 500 points back-to-back without draining, as the load
loop of `src/unnamed/part_009` does, cannot succeed on every call. -/
theorem C3_addPvtPoint_queueFull :
    (∀ (q : PvtConstAccelTrj) (pos : List ℚ) (t : ℕ),
        (∃ q', addPvtPoint q pos t = Except.ok q') ↔ q.points.length < q.capacity) ∧
      addPvtPoints ⟨[], 50⟩ (List.replicate 500 ([0, 0], 10)) =
        Except.error PvtError.queueFull := by
  constructor
  · intro q pos t
    constructor
    · rintro ⟨q', hq'⟩
      by_cases hc : q.capacity ≤ q.points.length
      · rw [addPvtPoint, if_pos hc] at hq'
        exact absurd hq' (by simp)
      · omega
    · intro hlt
      refine ⟨⟨q.points ++ [(pos, t)], q.capacity⟩, ?_⟩
      rw [addPvtPoint, if_neg (by omega)]
  · rfl

/-- C8 counterexample: the modelled continuous-acceleration velocity rule,
applied to positions `[0, 100, 100]` and durations `[50, 50, 0]`, assigns
velocity 1 at the middle waypoint, not 0: the duration-weighted mean of the
adjacent segment slopes 2 and 0 over equal durations is 1. -/
theorem C8_counterexample :
    derivedBoundaryVel [0, 100, 100] [50, 50, 0] 1 ≠ 0 := by
  norm_num [derivedBoundaryVel, segAvgVel]

/-- C8 (amended): for the stream with positions `[0, 100, 100]` and durations
`[50, 50, 0]`, the modelled continuous-acceleration derivation assigns
velocity 1 at the middle waypoint, and that value indeed makes the incoming
and outgoing accelerations across that boundary equal. -/
theorem C8_derived_velocity_value :
    derivedBoundaryVel [0, 100, 100] [50, 50, 0] 1 = 1 ∧
      incomingAccel [0, 100, 100] [50, 50, 0] 1 =
        outgoingAccel [0, 100, 100] [50, 50, 0] 1 := by
  constructor
  · norm_num [derivedBoundaryVel, segAvgVel]
  · norm_num [incomingAccel, outgoingAccel, derivedBoundaryVel, segAvgVel]

/-- General characterization tying the modelled rule to the spec's words: at
every interior boundary with nonzero adjacent durations, the derived velocity
makes the incoming and the outgoing acceleration equal. -/
theorem derivedBoundaryVel_equates_accel (ps : List ℚ) (ts : List ℕ) (i : ℕ)
    (hi0 : i ≠ 0) (hin : i ≠ ps.length - 1)
    (ht1 : ts.getD (i - 1) 0 ≠ 0) (ht2 : ts.getD i 0 ≠ 0) :
    incomingAccel ps ts i = outgoingAccel ps ts i := by
  unfold incomingAccel outgoingAccel derivedBoundaryVel
  rw [if_neg hi0, if_neg hin]
  have h1 : ((ts.getD (i - 1) 0 : ℕ) : ℚ) ≠ 0 := Nat.cast_ne_zero.mpr ht1
  have h2 : ((ts.getD i 0 : ℕ) : ℚ) ≠ 0 := Nat.cast_ne_zero.mpr ht2
  have h1p : (0 : ℚ) < ((ts.getD (i - 1) 0 : ℕ) : ℚ) :=
    lt_of_le_of_ne (Nat.cast_nonneg _) (Ne.symm h1)
  have h2p : (0 : ℚ) < ((ts.getD i 0 : ℕ) : ℚ) :=
    lt_of_le_of_ne (Nat.cast_nonneg _) (Ne.symm h2)
  have h12 : ((ts.getD (i - 1) 0 : ℕ) : ℚ) + ((ts.getD i 0 : ℕ) : ℚ) ≠ 0 :=
    ne_of_gt (add_pos h1p h2p)
  set v1 := segAvgVel ps ts (i - 1) with hv1
  set v2 := segAvgVel ps ts i with hv2
  set t1 := ((ts.getD (i - 1) 0 : ℕ) : ℚ) with htq1
  set t2 := ((ts.getD i 0 : ℕ) : ℚ) with htq2
  field_simp
  ring

end CMLExamples
